import Mathlib

/-!
Verification development for the SLIME `LimeBase` explainer
(`lime_base.py`): feature-selection strategies, the testing/stratified
explanation pipeline, and the bootstrap sign-entropy stability filter.

Numeric conventions of the shallow embedding:
* machine floats are modelled as exact rationals `ℚ`;
* external numerical capabilities (the kernel function, the ridge solver,
  `np.sqrt`, the LARS/lasso path solver, the process-global `np.random`
  stream) are oracle parameters, matching the spec's "consumed interface"
  boundary; everything the Python file itself computes is translated
  concretely;
* 1-D numpy arrays are `List ℚ`, 2-D arrays are `List (List ℚ)`
  (row-major), and out-of-range reads default to `0` (never exercised by
  the theorems at in-range inputs).
-/

/-- `np.nonzero(v)[0]`: ascending indices of the non-zero entries of a
coefficient vector. -/
def nonzeroIndices (v : List ℚ) : List Nat :=
  (List.range v.length).filter (fun j => v.getD j 0 ≠ 0)

/-- `lime_base.py` lines 139-142 (non-testing lasso path): the loop
`for i in range(len(coefs.T) - 1, 0, -1): nonzero = coefs.T[i].nonzero()[0];
if len(nonzero) <= num_features: break`.  The countdown argument is the
current path-step index `i`; `nz` is the running value of `nonzero`. -/
def lassoScanAux (coefsT : List (List ℚ)) (k : Nat) : Nat → List Nat → List Nat
  | 0, nz => nz
  | i + 1, _ =>
    let nz' := nonzeroIndices (coefsT.getD (i + 1) [])
    if nz'.length ≤ k then nz' else lassoScanAux coefsT k i nz'

/-- `lime_base.py` lines 136-144: `nonzero = range(n_features)` followed by
the downward scan over the path steps `len(coefs.T)-1, …, 1`. -/
def lassoPathSelect (coefsT : List (List ℚ)) (nFeatures k : Nat) : List Nat :=
  lassoScanAux coefsT k (coefsT.length - 1) (List.range nFeatures)

/-- `lime_base.py` lines 163-169 (testing lasso path): same downward scan,
except that `if use_stratification: break` fires right after `nonzero` is
assigned, before the `num_features` test. -/
def lassoScanTestingAux (coefsT : List (List ℚ)) (k : Nat) (strat : Bool) :
    Nat → List Nat → List Nat
  | 0, nz => nz
  | i + 1, _ =>
    let nz' := nonzeroIndices (coefsT.getD (i + 1) [])
    if strat then nz'
    else if nz'.length ≤ k then nz'
    else lassoScanTestingAux coefsT k strat i nz'

/-- `lime_base.py` lines 158-169: testing-mode scan entry point. -/
def lassoPathSelectTesting (coefsT : List (List ℚ)) (nFeatures k : Nat)
    (strat : Bool) : List Nat :=
  lassoScanTestingAux coefsT k strat (coefsT.length - 1) (List.range nFeatures)

/-- Claim-side rendering of C1's walk, following the spec's words: walk the
path from the most-regularized end (step 0, all coefficients zero, per the
spec's path convention "regularization decreases from all-zero to
unregularized") toward the least-regularized end, return the first step whose
non-zero count is ≤ `num_features`; if none qualifies, the least-regularized
step's non-zero set. -/
def lassoSelectClaimC1 (coefsT : List (List ℚ)) (k : Nat) : List Nat :=
  match (List.range coefsT.length).find?
      (fun i => (nonzeroIndices (coefsT.getD i [])).length ≤ k) with
  | some i => nonzeroIndices (coefsT.getD i [])
  | none => nonzeroIndices (coefsT.getD (coefsT.length - 1) [])

/-- Amended rendering of C1: the code walks from the least-regularized end
(step `len-1`) down toward the most-regularized end, stopping at step 1; it
returns the first step so encountered (the least-regularized one) whose
non-zero count is ≤ `num_features`; if none of the steps `len-1,…,1`
qualifies, it returns step 1's non-zero set; a path with fewer than two steps
leaves the initial value, all feature indices. -/
def lassoSelectAmended (coefsT : List (List ℚ)) (nFeatures k : Nat) : List Nat :=
  match (((List.range coefsT.length).drop 1).reverse).find?
      (fun i => (nonzeroIndices (coefsT.getD i [])).length ≤ k) with
  | some i => nonzeroIndices (coefsT.getD i [])
  | none =>
    if 2 ≤ coefsT.length then nonzeroIndices (coefsT.getD 1 [])
    else List.range nFeatures

/-! ## Forward selection (`lime_base.py` lines 63-82)

The weighted zero-regularization ridge fit-and-score pair
(`clf.fit(data[:, used + [feature]], labels, sample_weight=weights)` followed
by `clf.score(...)` on the same data) is the external solver capability; it
enters as the oracle `score used feature`, the weighted R² of the fit on the
used set extended by the candidate. -/

/-- The inner candidate loop of `forward_selection`:
`max_ = -100000000; best = 0;` then
`for feature in range(n): if feature in used: continue;
 score = …; if score > max_: best = feature; max_ = score`.
The pair argument is the running `(best, max_)`. -/
def fsInnerScan (score : List Nat → Nat → ℚ) (used : List Nat) :
    List Nat → Nat × ℚ → Nat × ℚ
  | [], bm => bm
  | f :: fs, bm =>
    if f ∈ used then fsInnerScan score used fs bm
    else if bm.2 < score used f then fsInnerScan score used fs (f, score used f)
    else fsInnerScan score used fs bm

/-- One round of `forward_selection`: the winning candidate `best`. -/
def pickBest (score : List Nat → Nat → ℚ) (n : Nat) (used : List Nat) : Nat :=
  (fsInnerScan score used (List.range n) (0, -100000000)).1

/-- The outer loop of `forward_selection`: `min(num_features, n_features)`
append rounds; the countdown argument is the number of rounds left. -/
def fsLoop (score : List Nat → Nat → ℚ) (n : Nat) : Nat → List Nat → List Nat
  | 0, used => used
  | r + 1, used => fsLoop score n r (used ++ [pickBest score n used])

/-- `LimeBase.forward_selection` with the fit/score solver abstracted:
`n` is `data.shape[1]`, `k` is `num_features`. -/
def forward_selection (score : List Nat → Nat → ℚ) (n k : Nat) : List Nat :=
  fsLoop score n (min k n) []

/-- Claim-side rendering of C9's greedy rule, following the spec's words: in
each round, among the not-yet-used features, append the first feature
encountered whose score is maximal (stable scan order tie-break). -/
def firstArgmax (g : Nat → ℚ) (cands : List Nat) : Option Nat :=
  cands.find? (fun c => decide (∀ c' ∈ cands, g c' ≤ g c))

/-- Claim-side greedy outer loop for C9. -/
def greedyLoop (score : List Nat → Nat → ℚ) (n : Nat) : Nat → List Nat → List Nat
  | 0, used => used
  | r + 1, used =>
    greedyLoop score n r
      (used ++ [(firstArgmax (score used)
        ((List.range n).filter (fun x => decide (x ∉ used)))).getD 0])

/-- Claim-side greedy forward selection for C9. -/
def greedySpecFS (score : List Nat → Nat → ℚ) (n k : Nat) : List Nat :=
  greedyLoop score n (min k n) []

/-! ## Highest weights (`lime_base.py` lines 91-128)

The `Ridge(alpha=0.01)` coefficient vector is the external solver capability;
the two branches below take the quantities the Python code derives from it.
-/

/-- Stable-descending index sort for the dense branch:
`sorted(zip(range(n), weighted_data), key=lambda x: np.abs(x[1]), reverse=True)`
(Python `sorted` is stable, so equal magnitudes keep ascending index order).
`insertAbsDesc` places an index before the first strictly-smaller magnitude. -/
def insertAbsDesc (w : List ℚ) (i : Nat) : List Nat → List Nat
  | [] => [i]
  | j :: rest =>
    if |w.getD j 0| < |w.getD i 0| then i :: j :: rest
    else j :: insertAbsDesc w i rest

/-- Index list `0,…,n-1` sorted by descending `|w[i]|`, stable. -/
def sortIdxDescAbs (w : List ℚ) (n : Nat) : List Nat :=
  (List.range n).foldr (fun i acc => insertAbsDesc w i acc) []

/-- Dense branch of `highest_weights` (lines 122-128): rank all columns by
descending `|coef * data[0]|` and keep the first `num_features`.
`coef` abstracts `Ridge(alpha=0.01).coef_`, `row0` is `data[0]`. -/
def highest_weights_dense (coef row0 : List ℚ) (n k : Nat) : List Nat :=
  (sortIdxDescAbs (List.zipWith (fun c x => c * x) coef row0) n).take k

/-- Sparse-branch padding loop (lines 111-117): scan columns `0,…,n-1` in
order, collecting columns outside `indices_set` until `num_to_pad` are found.
The Python loop writes pads into the zero-placeholder slots
`sdata, sdata+1, …` of `indices` and breaks once `pad_counter ≥ num_to_pad`,
so the collected pads fill those slots in scan order; slots never reached keep
the placeholder `0`. -/
def collectPads (seen : List Nat) (need : Nat) : List Nat → List Nat
  | [] => []
  | i :: rest =>
    if need = 0 then []
    else if i ∈ seen then collectPads seen need rest
    else i :: collectPads seen (need - 1) rest

/-- Entry indices of the sparse product `weighted_data = csr(coef).multiply(data[0])`
sorted by descending absolute value: `weighted_data.indices[argsort(|data|)[::-1]]`.
`np.argsort` (ascending; tie order unspecified) followed by `[::-1]` is
modelled as `List.insertionSort` by `|value|` then `reverse`; the theorems
that depend on the order carry a pairwise-distinct-magnitude hypothesis under
which every sort agrees. -/
def nnzDescIdx (entries : List (Nat × ℚ)) : List Nat :=
  ((entries.insertionSort (fun a b => |a.2| ≤ |b.2|)).reverse).map (fun e => e.1)

/-- Sparse branch of `highest_weights` (lines 97-121).  `entries` models the
canonical CSR form of `weighted_data = csr(coef).multiply(data[0])`
(strictly ascending indices, explicitly stored values); `n` is
`data.shape[1]`, `k` is `num_features`.  In the `sdata < num_features` arm
the Python code builds `indices = nnz_desc ++ zeros(num_to_pad)`, takes
`indices_set = set(indices)` (which therefore always contains `0`), and then
runs the padding loop over all columns. -/
def highest_weights_sparse (entries : List (Nat × ℚ)) (n k : Nat) : List Nat :=
  let s := entries.length
  if s < k then
    let nnzIdx := nnzDescIdx entries
    let numToPad := k - s
    let seen := nnzIdx ++ List.replicate numToPad 0
    let pads := collectPads seen numToPad (List.range n)
    nnzIdx ++ pads ++ List.replicate (numToPad - pads.length) 0
  else
    ((entries.insertionSort (fun a b => |a.2| ≤ |b.2|)).drop (s - k)).reverse.map
      (fun e => e.1)

/-- Claim-side rendering of C2's sparse-padding rule, following the spec's
words: all non-zero indices sorted by descending absolute contribution,
followed by the previously-unseen feature indices in ascending column order
until `num_features` entries are reached. -/
def highestWeightsSparseClaim (entries : List (Nat × ℚ)) (n k : Nat) : List Nat :=
  let nnzIdx := nnzDescIdx entries
  nnzIdx ++ ((List.range n).filter (fun i => decide (i ∉ nnzIdx))).take
    (k - entries.length)

/-- Amended rendering of C2: the padding scan skips column `0` whenever it is
not itself a non-zero index (the zero placeholders put `0` into
`indices_set`), and slots left over when the scan exhausts all columns keep
the placeholder value `0`. -/
def highestWeightsSparseAmended (entries : List (Nat × ℚ)) (n k : Nat) : List Nat :=
  let nnzIdx := nnzDescIdx entries
  let numToPad := k - entries.length
  let cands := (List.range n).filter (fun i => decide (i ∉ nnzIdx) && decide (i ≠ 0))
  let pads := cands.take numToPad
  nnzIdx ++ pads ++ List.replicate (numToPad - pads.length) 0

/-! ## External capabilities (spec §6)

`Oracles` bundles every consumed interface of the Python file: the kernel
function, `np.sqrt`, the LARS/lasso path solver in both modes (the testing
mode additionally yields the pass-through significance result, modelled as a
rational), the ridge solvers used by `highest_weights`, by the final
explanation fit, and by the bootstrap fits of the stability filter, the
forward-selection fit/score capability, and the process-global `np.random`
stream.  `choice t n` is the value of the `t`-th call to
`np.random.choice(range(n), size=n, replace=True)` made by the process; the
counter `t` models the global generator state that advances across calls. -/

/-- Result of a regressor `fit`/`score`/`predict` group
(`intercept_`, `coef_`, `score(...)`, `predict(data[0:1, used])`). -/
structure RegResult where
  intercept : ℚ
  coef : List ℚ
  fitScore : ℚ
  localPred : ℚ
deriving DecidableEq, Repr

/-- The consumed external capabilities (see section comment above). -/
structure Oracles where
  kernel : List ℚ → List ℚ
  sqrtQ : ℚ → ℚ
  lars : List (List ℚ) → List ℚ → List (List ℚ)
  larsT : List (List ℚ) → List ℚ → List (List ℚ) × ℚ
  ridgeHW : List (List ℚ) → List ℚ → List ℚ → List ℚ
  fwdScore : List (List ℚ) → List ℚ → List ℚ → ℚ
  reg : List (List ℚ) → List ℚ → List ℚ → RegResult
  ridgeBoot : List (List ℚ) → List ℚ → List ℚ
  choice : Nat → Nat → List Nat

/-- `data[:, cols]`: restrict every row to the listed columns, in order. -/
def restrictCols (data : List (List ℚ)) (cols : List Nat) : List (List ℚ) :=
  data.map (fun row => cols.map (fun j => row.getD j 0))

/-- `np.average(xs, weights=ws)`; total `ℚ` division (a zero weight sum,
where numpy raises, is outside every theorem's inputs). -/
def weightedAverage (xs ws : List ℚ) : ℚ :=
  (List.zipWith (fun x w => x * w) xs ws).sum / ws.sum

/-- Column `j` of `data`. -/
def colOf (data : List (List ℚ)) (j : Nat) : List ℚ :=
  data.map (fun row => row.getD j 0)

/-- Lines 131-132 / 146-147:
`(data - np.average(data, axis=0, weights)) * np.sqrt(weights[:, np.newaxis])`. -/
def whitenData (or : Oracles) (data : List (List ℚ)) (ws : List ℚ) :
    List (List ℚ) :=
  (List.range data.length).map (fun i =>
    (List.range (data.getD 0 []).length).map (fun j =>
      ((data.getD i []).getD j 0 - weightedAverage (colOf data j) ws)
        * or.sqrtQ (ws.getD i 0)))

/-- Lines 133-134 / 148-149:
`(labels - np.average(labels, weights)) * np.sqrt(weights)`. -/
def whitenLabels (or : Oracles) (ls ws : List ℚ) : List ℚ :=
  (List.range ls.length).map (fun i =>
    (ls.getD i 0 - weightedAverage ls ws) * or.sqrtQ (ws.getD i 0))

/-! ## Stability filter (`lime_base.py` lines 341-372) -/

/-- `np.sign` on a rational. -/
def qsign (q : ℚ) : ℚ := if q < 0 then -1 else if q = 0 then 0 else 1

/-- Counts of `np.unique(signs, return_counts=True)`: for each distinct value
of `l`, how often it occurs (the enumeration order of the distinct values
does not affect anything downstream, which only takes a product over them). -/
def signCountsOf (l : List ℚ) : List Nat :=
  l.dedup.map (fun v => (l.filter (fun x => x = v)).length)

/-- The elimination test `entropy(counts / n, base=2) > 0.85` in exact form.
With `c₁,…,cₘ` the sign counts and `n = Σ cᵢ` the sample count, the base-2
Shannon entropy `log₂ n - (1/n) Σ cᵢ log₂ cᵢ` exceeds `17/20` iff
`2^(17n) * Π cᵢ^(20 cᵢ) < n^(20n)`: multiply by `20 n` and exponentiate, an
equivalence since `log₂` is strictly monotone on the positive integers. -/
def entropyExceeds (signs : List ℚ) : Bool :=
  let n := signs.length
  2 ^ (17 * n) * ((signCountsOf signs).map (fun c => c ^ (20 * c))).prod
    < n ^ (20 * n)

/-- State threaded through the filter's `while` loop: the per-feature active
flags, the accumulated `elimination` list, and the position reached in the
global `np.random` stream. -/
structure FilterState where
  flags : Nat → Bool
  elim : List Nat
  tick : Nat

/-- `feats = [i for i in range(n_features) if flags[i]]` (line 348). -/
def activeFeats (nf : Nat) (flags : Nat → Bool) : List Nat :=
  (List.range nf).filter flags

/-- Lines 350-360: the `n_samples` bootstrap fits of one round.  Row `i`
draws `boots_sample_idx = np.random.choice(range(n_samples), size=n_samples)`
(the `(t+i)`-th global draw), restricts data rows to the draw and columns to
`feats`, and records `Ridge(alpha=1).fit(X, y).coef_`. -/
def bootCoefs (or : Oracles) (data : List (List ℚ)) (labels : List ℚ)
    (feats : List Nat) (t nsamp : Nat) : List (List ℚ) :=
  (List.range nsamp).map (fun i =>
    let boots := or.choice (t + i) nsamp
    or.ridgeBoot (boots.map (fun r => feats.map (fun j => (data.getD r []).getD j 0)))
      (boots.map (fun r => labels.getD r 0)))

/-- Column `idx` of the round's coefficient matrix, passed through `np.sign`
(line 363: `signs = np.sign(coefs[:, idx])`). -/
def signColumn (coefs : List (List ℚ)) (idx : Nat) : List ℚ :=
  coefs.map (fun row => qsign (row.getD idx 0))

/-- Lines 361-370: the per-feature scan of one round.  `idx` is the running
column counter; an unstable feature is appended to `elimination` and its flag
cleared. -/
def roundScanAux (coefs : List (List ℚ)) :
    List Nat → Nat → (Nat → Bool) → List Nat → (Nat → Bool) × List Nat
  | [], _, flags, elim => (flags, elim)
  | f :: rest, idx, flags, elim =>
    if entropyExceeds (signColumn coefs idx) then
      roundScanAux coefs rest (idx + 1)
        (fun x => if x = f then false else flags x) (elim ++ [f])
    else roundScanAux coefs rest (idx + 1) flags elim

/-- One iteration of the `while iter < 5` body (lines 348-371). -/
def roundStep (or : Oracles) (data : List (List ℚ)) (labels : List ℚ)
    (nf nsamp : Nat) (s : FilterState) : FilterState :=
  let feats := activeFeats nf s.flags
  let coefs := bootCoefs or data labels feats s.tick nsamp
  let fe := roundScanAux coefs feats 0 s.flags s.elim
  { flags := fe.1, elim := fe.2, tick := s.tick + nsamp }

/-- The `while iter < 5` loop, as a countdown on the remaining rounds. -/
def filterLoop (or : Oracles) (data : List (List ℚ)) (labels : List ℚ)
    (nf nsamp : Nat) : Nat → FilterState → FilterState
  | 0, s => s
  | r + 1, s => filterLoop or data labels nf nsamp r (roundStep or data labels nf nsamp s)

/-- `LimeBase.fit_ridge_on_k_neighbors` (lines 341-372).  `t0` is the
position of the process-global `np.random` stream when the call starts; the
result pairs the `elimination` list with the stream position after the call
(each round's `n_samples` bootstrap draws advance it). -/
def fit_ridge_on_k_neighbors (or : Oracles) (data : List (List ℚ))
    (labels : List ℚ) (t0 : Nat) : List Nat × Nat :=
  let nsamp := data.length
  let nf := (data.getD 0 []).length
  let s := filterLoop or data labels nf nsamp 5
    { flags := fun _ => true, elim := [], tick := t0 }
  (s.elim, s.tick)

/-- Spec-side description of one round's eliminations: the active features
whose sign column fails the stability test, in scan order. -/
def roundElims (or : Oracles) (data : List (List ℚ)) (labels : List ℚ)
    (nf nsamp : Nat) (s : FilterState) : List Nat :=
  let feats := activeFeats nf s.flags
  let coefs := bootCoefs or data labels feats s.tick nsamp
  ((List.range feats.length).filter
    (fun idx => entropyExceeds (signColumn coefs idx))).map
    (fun idx => feats.getD idx 0)

/-! ## Strategy dispatch (`LimeBase.feature_selection`, lines 84-177) -/

/-- What the Python `feature_selection` call evaluates to: a plain index
array, the `(used_features, test_result)` pair of the testing lasso mode, or
— for a method string matching no `elif` branch — Python's implicit `None`. -/
inductive FSResult
  | sel (l : List Nat)
  | selTest (l : List Nat) (t : ℚ)
  | pyNone
deriving DecidableEq, Repr

/-- Outcome of a Python call that could in principle raise: a normal return
value or a raised exception.  `lime_base.py` contains no `raise` statement,
so every branch of the embedded functions produces `val`; failures of the
external solver capabilities are outside this boundary (the spec's
"propagated as-is"). -/
inductive PyOutcome (α : Type)
  | val (a : α)
  | raised (msg : String)
deriving DecidableEq, Repr

/-- `LimeBase.feature_selection` (lines 84-177).  Dense-data case
(`sp.sparse.issparse(data)` false; the sparse `highest_weights` arm is
embedded separately as `highest_weights_sparse`).  The `auto` branch
re-enters with `forward_selection`/`highest_weights` and default flags, which
the translation inlines.  A method string matching no branch falls off the
`elif` chain: Python returns `None`, it does not raise. -/
def feature_selection (or : Oracles) (data : List (List ℚ))
    (labels weights : List ℚ) (k : Nat) (method : String)
    (testing strat : Bool) : PyOutcome FSResult :=
  let nf := (data.getD 0 []).length
  if method = "none" then .val (.sel (List.range nf))
  else if method = "forward_selection" then
    .val (.sel (forward_selection
      (fun used f => or.fwdScore (restrictCols data (used ++ [f])) labels weights)
      nf k))
  else if method = "highest_weights" then
    .val (.sel (highest_weights_dense (or.ridgeHW data labels weights)
      (data.getD 0 []) nf k))
  else if method = "lasso_path" then
    if testing then
      let wd := whitenData or data weights
      let wl := whitenLabels or labels weights
      let p := or.larsT wd wl
      .val (.selTest (lassoPathSelectTesting p.1 nf k strat) p.2)
    else
      .val (.sel (lassoPathSelect
        (or.lars (whitenData or data weights) (whitenLabels or labels weights)) nf k))
  else if method = "auto" then
    if k ≤ 6 then
      .val (.sel (forward_selection
        (fun used f => or.fwdScore (restrictCols data (used ++ [f])) labels weights)
        nf k))
    else
      .val (.sel (highest_weights_dense (or.ridgeHW data labels weights)
        (data.getD 0 []) nf k))
  else .val .pyNone

/-! ## The explanation operations (lines 179-249 and 251-339) -/

/-- Inputs of `testing_explain_instance_with_data` (the caller-owned buffers
and scalar arguments). -/
structure TEInput where
  data : List (List ℚ)
  labels : List (List ℚ)
  distances : List ℚ
  label : Nat
  numFeatures : Nat
  weightAdjustments : Option (List ℚ)
  useStratification : Bool

/-- Observable trace of one `testing_explain_instance_with_data` call: the
final contents of the three caller-owned buffers, the selection pipeline's
intermediate sets, the design matrix handed to the final regressor fit, the
regressor's result, and the global RNG position after the call. -/
structure TETrace where
  finalData : List (List ℚ)
  finalLabels : List (List ℚ)
  finalDistances : List ℚ
  selected : List Nat
  testResult : ℚ
  elimination : List Nat
  usedFeatures : List Nat
  fitX : List (List ℚ)
  reg : RegResult
  rngTickAfter : Nat

/-- `LimeBase.testing_explain_instance_with_data` (lines 251-339) with the
default `feature_selection='lasso_path'` of its signature.  Line 300
`distances *= weight_adjustments` is an in-place `numpy` multiply on the
caller's array, so the final contents of the distances buffer is the scaled
vector; the data and label buffers are only read.  Line 320 computes
`list(set(used_features) - set(elimination))` — Python's set iteration order
is unspecified, the embedding fixes first-occurrence order and the theorems
only use set-level facts about it.  No emptiness check follows: the final
regressor is fit on whatever columns remain.  `t0` is the global `np.random`
position at call entry. -/
def testing_explain_instance_with_data (or : Oracles) (inp : TEInput)
    (t0 : Nat) : TETrace :=
  let distances' :=
    match inp.weightAdjustments with
    | none => inp.distances
    | some wa => List.zipWith (fun d a => d * a) inp.distances wa
  let weights := or.kernel distances'
  let labelsCol := inp.labels.map (fun row => row.getD inp.label 0)
  let et := if inp.useStratification
    then fit_ridge_on_k_neighbors or inp.data labelsCol t0
    else ([], t0)
  let fsOut := feature_selection or inp.data labelsCol weights inp.numFeatures
    "lasso_path" true inp.useStratification
  let st :=
    match fsOut with
    | .val (.selTest l t) => (l, t)
    | _ => ([], 0)
  let used := st.1.dedup.filter (fun x => decide (x ∉ et.1))
  let X := restrictCols inp.data used
  { finalData := inp.data
    finalLabels := inp.labels
    finalDistances := distances'
    selected := st.1
    testResult := st.2
    elimination := et.1
    usedFeatures := used
    fitX := X
    reg := or.reg X labelsCol weights
    rngTickAfter := et.2 }

/-- Observable trace of one `explain_instance_with_data` call. -/
structure ExpTrace where
  finalData : List (List ℚ)
  finalLabels : List (List ℚ)
  finalDistances : List ℚ
  usedFeatures : List Nat
  reg : RegResult

/-- `LimeBase.explain_instance_with_data` (lines 179-249): no weight
adjustment exists in this signature and nothing writes to the caller's
buffers.  `feature_selection` is called with default `testing=False`,
`use_stratification=True`.  A non-`sel` selection result (possible only for
an unknown method string, where Python returns `None` and the subsequent
`numpy` indexing misbehaves downstream) is mapped to the empty column list;
the buffer fields are unaffected either way. -/
def explain_instance_with_data (or : Oracles) (data labels : List (List ℚ))
    (distances : List ℚ) (label k : Nat) (method : String) : ExpTrace :=
  let weights := or.kernel distances
  let labelsCol := labels.map (fun row => row.getD label 0)
  let used :=
    match feature_selection or data labelsCol weights k method false true with
    | .val (.sel l) => l
    | .val (.selTest l _) => l
    | _ => []
  { finalData := data
    finalLabels := labels
    finalDistances := distances
    usedFeatures := used
    reg := or.reg (restrictCols data used) labelsCol weights }

/-! ## Helper functions and concrete instances used by the theorems -/

/-- The inner scan of `forward_selection` specialised to a candidate list
with the used features already filtered out (proof helper relating
`fsInnerScan` to a first-argmax). -/
def fsScanNF (g : Nat → ℚ) : List Nat → Nat × ℚ → Nat × ℚ
  | [], bm => bm
  | f :: fs, bm =>
    if bm.2 < g f then fsScanNF g fs (f, g f) else fsScanNF g fs bm

/-- The eliminations produced by one `roundScanAux` pass, in scan order:
the active features whose sign column fails the stability test. -/
def roundScanElims (coefs : List (List ℚ)) : List Nat → Nat → List Nat
  | [], _ => []
  | f :: rest, idx =>
    if entropyExceeds (signColumn coefs idx) then
      f :: roundScanElims coefs rest (idx + 1)
    else roundScanElims coefs rest (idx + 1)

/-- Trivial instantiation of every external capability (used to exercise the
embedded control flow at concrete inputs). -/
def oraclesBase : Oracles where
  kernel := fun l => l
  sqrtQ := fun q => q
  lars := fun _ _ => []
  larsT := fun _ _ => ([], 0)
  ridgeHW := fun _ _ _ => []
  fwdScore := fun _ _ _ => 0
  reg := fun _ _ _ => ⟨0, [], 0, 0⟩
  ridgeBoot := fun _ _ => []
  choice := fun _ _ => []

/-- Path solver returning a four-step lasso path with non-zero counts
0, 1, 2, 3 (step 0 most regularized, per the spec's path convention). -/
def oraclesC1 : Oracles :=
  { oraclesBase with
    lars := fun _ _ => [[0, 0, 0], [1, 0, 0], [1, 1, 0], [1, 1, 1]] }

/-- Testing path solver returning a two-step path (step 0 all-zero) and the
significance result `7`. -/
def oraclesC7 : Oracles :=
  { oraclesBase with larsT := fun _ _ => ([[0, 0], [3, 4]], 7) }

/-- Instance exhibiting the global-RNG dependence of the stability filter on
the two-sample, one-feature dataset `[[1], [2]]` with labels `[1, 2]`:
bootstrap draws `[0,0]` and `[1,1]` select the two constant resamples, whose
ridge coefficients the solver oracle gives opposite signs; the global
`np.random` stream returns `[0,0]` for its first ten draws (the first filter
call) and `[0,0], [1,1]` alternating at draws 10 and 11 (the start of the
second call). -/
def oraclesC4 : Oracles :=
  { oraclesBase with
    ridgeBoot := fun X _ =>
      if X = [[1], [1]] then [1] else if X = [[2], [2]] then [-1] else [0]
    choice := fun t _ => if t < 10 then [0, 0] else if t = 11 then [1, 1] else [0, 0] }

/-- Instance on which the stability filter eliminates feature 0 in its first
round (draws 0 and 1 give opposite-sign resamples) while the testing lasso
path selects exactly feature 0, so the set difference at line 320 is empty. -/
def oraclesC5 : Oracles :=
  { oraclesBase with
    larsT := fun _ _ => ([[0], [5]], 3)
    ridgeBoot := fun X _ =>
      if X = [[1], [1]] then [1] else if X = [[2], [2]] then [-1] else [0]
    choice := fun t _ => if t = 1 then [1, 1] else [0, 0] }

/-- Concrete call for C5: stratification on, so the elimination set `[0]`
swallows the selected subset `[0]`. -/
def inpC5 : TEInput where
  data := [[1], [2]]
  labels := [[1], [2]]
  distances := [0, 1]
  label := 0
  numFeatures := 5
  weightAdjustments := none
  useStratification := true

/-- Concrete call for C6: a weight adjustment is supplied, so line 300
rescales the caller's distances buffer in place. -/
def inpC6 : TEInput where
  data := [[1], [2]]
  labels := [[1], [2]]
  distances := [1, 2]
  label := 0
  numFeatures := 1
  weightAdjustments := some [3, 4]
  useStratification := false

/-- Concrete call for C10: stratification off. -/
def inpC10 : TEInput where
  data := [[1, 2], [2, 1]]
  labels := [[1], [2]]
  distances := [0, 1]
  label := 0
  numFeatures := 1
  weightAdjustments := none
  useStratification := false

/-! # Theorems -/

/-- `List.find?` only depends on the predicate's values on the list. -/
theorem find?_congruent {α : Type} (p q : α → Bool) :
    ∀ l : List α, (∀ x ∈ l, p x = q x) → l.find? p = l.find? q := by
  intro l
  induction l with
  | nil => intro _; rfl
  | cons a t ih =>
    intro h
    have ha := h a (List.mem_cons_self a t)
    simp only [List.find?_cons, ha]
    cases q a with
    | true => rfl
    | false => exact ih (fun x hx => h x (List.mem_cons_of_mem a hx))

/-- The step-index lists scanned by the lasso loop peel off their head. -/
theorem range_drop_reverse_succ (i : Nat) :
    ((List.range (i + 2)).drop 1).reverse = (i + 1) :: ((List.range (i + 1)).drop 1).reverse := by
  rw [List.range_succ, List.drop_append_of_le_length (by simp)]
  simp

/-- Unfolding equation for the scan at a positive step index. -/
theorem lassoScanAux_succ (coefsT : List (List ℚ)) (k i : Nat) (nz : List Nat) :
    lassoScanAux coefsT k (i + 1) nz =
      if (nonzeroIndices (coefsT.getD (i + 1) [])).length ≤ k then
        nonzeroIndices (coefsT.getD (i + 1) [])
      else lassoScanAux coefsT k i (nonzeroIndices (coefsT.getD (i + 1) [])) := rfl

/-- Characterization of the downward lasso-path scan: it returns the step of
the first qualifying index among `i, i-1, …, 1`, and otherwise the last value
assigned to `nonzero` (step 1's non-zero set when the loop ran, the initial
value when it did not). -/
theorem lassoScanAux_char (coefsT : List (List ℚ)) (k : Nat) :
    ∀ (i : Nat) (nz : List Nat),
      lassoScanAux coefsT k i nz =
        match (((List.range (i + 1)).drop 1).reverse).find?
            (fun j => decide ((nonzeroIndices (coefsT.getD j [])).length ≤ k)) with
        | some j => nonzeroIndices (coefsT.getD j [])
        | none => if 1 ≤ i then nonzeroIndices (coefsT.getD 1 []) else nz := by
  intro i
  induction i with
  | zero => intro nz; simp [lassoScanAux]
  | succ i ih =>
    intro nz
    rw [range_drop_reverse_succ, List.find?_cons]
    by_cases h : (nonzeroIndices (coefsT.getD (i + 1) [])).length ≤ k
    · rw [lassoScanAux_succ, if_pos h, decide_eq_true h]
    · rw [lassoScanAux_succ, if_neg h]
      simp only [decide_eq_false h]
      rw [ih]
      cases hf : (((List.range (i + 1)).drop 1).reverse).find?
          (fun j => decide ((nonzeroIndices (coefsT.getD j [])).length ≤ k)) with
      | some j => rfl
      | none =>
        cases i with
        | zero => norm_num
        | succ m => simp

/-- The embedded non-testing lasso walk equals its amended description. -/
theorem lassoPathSelect_eq_amended (coefsT : List (List ℚ)) (n k : Nat) :
    lassoPathSelect coefsT n k = lassoSelectAmended coefsT n k := by
  unfold lassoPathSelect lassoSelectAmended
  rw [lassoScanAux_char]
  rcases Nat.eq_zero_or_pos coefsT.length with hL | hL
  · rw [hL]
    simp
  · have h1 : coefsT.length - 1 + 1 = coefsT.length := Nat.succ_pred_eq_of_pos hL
    rw [h1]
    cases hf : (((List.range coefsT.length).drop 1).reverse).find?
        (fun j => decide ((nonzeroIndices (coefsT.getD j [])).length ≤ k)) with
    | some j => rfl
    | none =>
      simp only []
      by_cases h2 : 2 ≤ coefsT.length
      · rw [if_pos h2, if_pos (by omega : 1 ≤ coefsT.length - 1)]
      · rw [if_neg h2, if_neg (by omega : ¬1 ≤ coefsT.length - 1)]

/-- C1 (counterexample): on a four-step path with non-zero counts 0, 1, 2, 3
(step 0 the most-regularized all-zero step, per the spec's path convention)
and `num_features = 2`, the claimed walk — first most-regularized step with
count ≤ 2 — stops at step 0 and yields the empty set, while the code's
`feature_selection` with method `lasso_path` returns step 2's set `[0, 1]`:
the loop `for i in range(len(coefs.T)-1, 0, -1)` walks from the
least-regularized end. -/
theorem C1_counterexample :
    feature_selection oraclesC1 [[1, 1, 1]] [1] [1] 2 "lasso_path" false true
        = PyOutcome.val (FSResult.sel [0, 1])
      ∧ oraclesC1.lars (whitenData oraclesC1 [[1, 1, 1]] [1])
          (whitenLabels oraclesC1 [1] [1])
          = [[0, 0, 0], [1, 0, 0], [1, 1, 0], [1, 1, 1]]
      ∧ lassoSelectClaimC1 [[0, 0, 0], [1, 0, 0], [1, 1, 0], [1, 1, 1]] 2 = [] := by
  decide

/-- C1 (amended): `feature_selection` with method `lasso_path` (non-testing
mode) walks the solver's regularization path from the least-regularized end
(step `len-1`) toward the most-regularized end, stopping at step 1, and
returns the non-zero index set of the first step so encountered whose
non-zero count is ≤ `num_features`; if no step among `len-1,…,1` qualifies it
returns step 1's non-zero set, and if the path has fewer than two steps it
returns all feature indices. -/
theorem C1_lasso_path_walk (or : Oracles) (data : List (List ℚ))
    (labels weights : List ℚ) (k : Nat) (strat : Bool) :
    feature_selection or data labels weights k "lasso_path" false strat
      = PyOutcome.val (FSResult.sel (lassoSelectAmended
          (or.lars (whitenData or data weights) (whitenLabels or labels weights))
          (data.getD 0 []).length k)) := by
  have h : feature_selection or data labels weights k "lasso_path" false strat
      = PyOutcome.val (FSResult.sel (lassoPathSelect
          (or.lars (whitenData or data weights) (whitenLabels or labels weights))
          (data.getD 0 []).length k)) := rfl
  rw [h, lassoPathSelect_eq_amended]

/-- With stratification requested, the testing scan stops at the very first
step examined, which is the least-regularized step `len-1`. -/
theorem lassoPathSelectTesting_strat (coefsT : List (List ℚ)) (n k : Nat)
    (h : 2 ≤ coefsT.length) :
    lassoPathSelectTesting coefsT n k true
      = nonzeroIndices (coefsT.getD (coefsT.length - 1) []) := by
  obtain ⟨m, hm⟩ : ∃ m, coefsT.length = m + 2 := ⟨coefsT.length - 2, by omega⟩
  unfold lassoPathSelectTesting
  rw [hm]
  rfl

/-- C7 (counterexample): on the two-step path `[[0,0],[3,4]]` (step 0 the
most-regularized, all-zero) the testing selection with
`use_stratification=True` returns `[0,1]`, the non-zero set of the
least-regularized step — not the empty non-zero set of the coefficients at
maximum regularization that the claim describes. -/
theorem C7_counterexample :
    feature_selection oraclesC7 [[1, 1]] [1] [1] 5 "lasso_path" true true
        = PyOutcome.val (FSResult.selTest [0, 1] 7)
      ∧ (oraclesC7.larsT (whitenData oraclesC7 [[1, 1]] [1])
          (whitenLabels oraclesC7 [1] [1])).1 = [[0, 0], [3, 4]]
      ∧ nonzeroIndices ([[0, 0], [3, 4]].getD 0 []) = [] := by
  decide

/-- C7 (amended): in the testing variant of `feature_selection` with method
`lasso_path` and `use_stratification=True`, the scan stops at the very first
path step examined — the least-regularized step `len-1`, the coefficients at
minimum regularization — regardless of `num_features` (provided the path has
at least two steps), and that step's non-zero set is returned together with
the pass-through test result. -/
theorem C7_testing_strat_stops_first (or : Oracles) (data : List (List ℚ))
    (labels weights : List ℚ) (k : Nat)
    (h : 2 ≤ (or.larsT (whitenData or data weights)
        (whitenLabels or labels weights)).1.length) :
    feature_selection or data labels weights k "lasso_path" true true
      = PyOutcome.val (FSResult.selTest
          (nonzeroIndices ((or.larsT (whitenData or data weights)
              (whitenLabels or labels weights)).1.getD
            ((or.larsT (whitenData or data weights)
              (whitenLabels or labels weights)).1.length - 1) []))
          (or.larsT (whitenData or data weights)
            (whitenLabels or labels weights)).2) := by
  have h0 : feature_selection or data labels weights k "lasso_path" true true
      = PyOutcome.val (FSResult.selTest
          (lassoPathSelectTesting (or.larsT (whitenData or data weights)
              (whitenLabels or labels weights)).1
            (data.getD 0 []).length k true)
          (or.larsT (whitenData or data weights)
            (whitenLabels or labels weights)).2) := rfl
  rw [h0, lassoPathSelectTesting_strat _ _ _ h]

/-- C7 (witness): the amended statement at the concrete two-step path. -/
theorem C7_witness :
    2 ≤ (oraclesC7.larsT (whitenData oraclesC7 [[1, 1]] [1])
        (whitenLabels oraclesC7 [1] [1])).1.length
      ∧ feature_selection oraclesC7 [[1, 1]] [1] [1] 5 "lasso_path" true true
        = PyOutcome.val (FSResult.selTest
            (nonzeroIndices ((oraclesC7.larsT (whitenData oraclesC7 [[1, 1]] [1])
                (whitenLabels oraclesC7 [1] [1])).1.getD
              ((oraclesC7.larsT (whitenData oraclesC7 [[1, 1]] [1])
                (whitenLabels oraclesC7 [1] [1])).1.length - 1) []))
            (oraclesC7.larsT (whitenData oraclesC7 [[1, 1]] [1])
              (whitenLabels oraclesC7 [1] [1])).2) :=
  ⟨by decide, C7_testing_strat_stops_first oraclesC7 [[1, 1]] [1] [1] 5 (by decide)⟩

/-- C8 (counterexample): an unknown method string does not raise: the
`if/elif` chain of `feature_selection` has no `else`, so the call returns
normally with Python `None` — a successful return, not a configuration error
at the call boundary. -/
theorem C8_counterexample :
    feature_selection oraclesBase [[1, 2]] [1] [1] 3 "bogus" false true
      = PyOutcome.val FSResult.pyNone := by
  decide

/-- C8 (amended): a `feature_selection` method string that is none of
`none`, `forward_selection`, `highest_weights`, `lasso_path`, `auto` is not
rejected with a configuration error; the call falls off the `elif` chain and
returns Python `None` (no selection, but a normal return — any failure
surfaces only later, from downstream array handling in the caller). -/
theorem C8_unknown_method_returns_none (or : Oracles) (data : List (List ℚ))
    (labels weights : List ℚ) (k : Nat) (testing strat : Bool) (method : String)
    (h1 : method ≠ "none") (h2 : method ≠ "forward_selection")
    (h3 : method ≠ "highest_weights") (h4 : method ≠ "lasso_path")
    (h5 : method ≠ "auto") :
    feature_selection or data labels weights k method testing strat
      = PyOutcome.val FSResult.pyNone := by
  unfold feature_selection
  rw [if_neg h1, if_neg h2, if_neg h3, if_neg h4, if_neg h5]

/-- C8 (witness): the amended statement at the method string `"bogus"`. -/
theorem C8_witness :
    ("bogus" ≠ "none" ∧ "bogus" ≠ "forward_selection" ∧ "bogus" ≠ "highest_weights"
        ∧ "bogus" ≠ "lasso_path" ∧ "bogus" ≠ "auto")
      ∧ feature_selection oraclesBase [[1]] [1] [1] 2 "bogus" true false
        = PyOutcome.val FSResult.pyNone :=
  ⟨⟨by decide, by decide, by decide, by decide, by decide⟩,
    C8_unknown_method_returns_none oraclesBase [[1]] [1] [1] 2 true false "bogus"
      (by decide) (by decide) (by decide) (by decide) (by decide)⟩

/-- C6 (counterexample): with a `WeightAdjustment` supplied, line 300
`distances *= weight_adjustments` rescales the caller's distances buffer in
place: after the call the buffer holds `[3, 8]`, not the original `[1, 2]`. -/
theorem C6_counterexample :
    (testing_explain_instance_with_data oraclesBase inpC6 0).finalDistances
      ≠ inpC6.distances := by
  have h : (testing_explain_instance_with_data oraclesBase inpC6 0).finalDistances
      = List.zipWith (fun d a => d * a) [1, 2] [3, 4] := rfl
  have h2 : List.zipWith (fun d a => d * a) ([1, 2] : List ℚ) [3, 4] = [3, 8] := by
    norm_num
  rw [h, h2]
  decide

/-- C6 (amended): the explanation operations never mutate the caller's
neighborhood-data or label buffers, and `explain_instance_with_data` leaves
distances untouched as well; but `testing_explain_instance_with_data` scales
the caller's distances buffer elementwise in place whenever a
`WeightAdjustment` is supplied (the buffer afterwards holds
`distances * adjustment`; it is unchanged only when no adjustment is given). -/
theorem C6_buffer_frame (or : Oracles) (inp : TEInput) (t0 : Nat)
    (data labels : List (List ℚ)) (distances : List ℚ) (label k : Nat)
    (method : String) :
    (testing_explain_instance_with_data or inp t0).finalData = inp.data
      ∧ (testing_explain_instance_with_data or inp t0).finalLabels = inp.labels
      ∧ (testing_explain_instance_with_data or inp t0).finalDistances
        = (match inp.weightAdjustments with
          | none => inp.distances
          | some wa => List.zipWith (fun d a => d * a) inp.distances wa)
      ∧ (explain_instance_with_data or data labels distances label k method).finalData
        = data
      ∧ (explain_instance_with_data or data labels distances label k method).finalLabels
        = labels
      ∧ (explain_instance_with_data or data labels distances label k method).finalDistances
        = distances :=
  ⟨rfl, rfl, rfl, rfl, rfl, rfl⟩

/-- C10: when `use_stratification` is false, the stability filter is never
invoked — the elimination set is empty and the global RNG position is
untouched — and the fitted feature subset equals, as a set, the subset
returned by the testing lasso selection. -/
theorem C10_no_strat_skips_filter (or : Oracles) (inp : TEInput) (t0 : Nat)
    (h : inp.useStratification = false) :
    (testing_explain_instance_with_data or inp t0).elimination = []
      ∧ (testing_explain_instance_with_data or inp t0).rngTickAfter = t0
      ∧ (testing_explain_instance_with_data or inp t0).usedFeatures.toFinset
        = (testing_explain_instance_with_data or inp t0).selected.toFinset := by
  simp only [testing_explain_instance_with_data, h]
  refine ⟨rfl, rfl, ?_⟩
  ext x
  simp [List.mem_dedup]

/-- C10 (witness): the statement at a concrete non-stratified call. -/
theorem C10_witness :
    inpC10.useStratification = false
      ∧ ((testing_explain_instance_with_data oraclesBase inpC10 0).elimination = []
        ∧ (testing_explain_instance_with_data oraclesBase inpC10 0).rngTickAfter = 0
        ∧ (testing_explain_instance_with_data oraclesBase inpC10 0).usedFeatures.toFinset
          = (testing_explain_instance_with_data oraclesBase inpC10 0).selected.toFinset) :=
  ⟨rfl, C10_no_strat_skips_filter oraclesBase inpC10 0 rfl⟩

/-- C5 (counterexample): on `oraclesC5`/`inpC5` the stability filter
eliminates exactly the feature the testing lasso path selected, the set
difference at line 320 is empty — and the call does not fail with a
degenerate-selection error before fitting: it hands the zero-column design
matrix `[[], []]` to the regressor and returns a normal explanation result. -/
theorem C5_counterexample :
    (testing_explain_instance_with_data oraclesC5 inpC5 0).selected = [0]
      ∧ (testing_explain_instance_with_data oraclesC5 inpC5 0).elimination = [0]
      ∧ (testing_explain_instance_with_data oraclesC5 inpC5 0).usedFeatures = []
      ∧ (testing_explain_instance_with_data oraclesC5 inpC5 0).fitX = [[], []]
      ∧ (testing_explain_instance_with_data oraclesC5 inpC5 0).reg
        = oraclesC5.reg [[], []] [1, 2] [0, 1] := by
  decide

/-- C5 (amended): when subtracting the elimination set from the selected
subset leaves nothing, `testing_explain_instance_with_data` performs no
pre-fit emptiness check and raises no degenerate-selection error: it proceeds
to fit the model on zero columns — the design matrix passed to the regressor
is the all-empty-rows restriction of the data — and the returned explanation
is whatever the external regressor produces there (with scikit-learn's ridge
the failure would surface from inside that fit, not before it). -/
theorem C5_empty_subset_still_fits (or : Oracles) (inp : TEInput) (t0 : Nat)
    (h : (testing_explain_instance_with_data or inp t0).usedFeatures = []) :
    (testing_explain_instance_with_data or inp t0).fitX
        = inp.data.map (fun _ => ([] : List ℚ))
      ∧ (testing_explain_instance_with_data or inp t0).reg
        = or.reg (testing_explain_instance_with_data or inp t0).fitX
            (inp.labels.map (fun row => row.getD inp.label 0))
            (or.kernel (testing_explain_instance_with_data or inp t0).finalDistances) := by
  constructor
  · have h1 : (testing_explain_instance_with_data or inp t0).fitX
        = restrictCols inp.data (testing_explain_instance_with_data or inp t0).usedFeatures :=
      rfl
    rw [h1, h]
    rfl
  · rfl

/-- C5 (witness): the amended statement at the concrete degenerate call. -/
theorem C5_witness :
    (testing_explain_instance_with_data oraclesC5 inpC5 0).usedFeatures = []
      ∧ ((testing_explain_instance_with_data oraclesC5 inpC5 0).fitX
          = inpC5.data.map (fun _ => ([] : List ℚ))
        ∧ (testing_explain_instance_with_data oraclesC5 inpC5 0).reg
          = oraclesC5.reg (testing_explain_instance_with_data oraclesC5 inpC5 0).fitX
              (inpC5.labels.map (fun row => row.getD inpC5.label 0))
              (oraclesC5.kernel
                (testing_explain_instance_with_data oraclesC5 inpC5 0).finalDistances)) :=
  ⟨by decide, C5_empty_subset_still_fits oraclesC5 inpC5 0 (by decide)⟩

/-- C4: the bootstrap rows of `fit_ridge_on_k_neighbors` are drawn from the
process-global `np.random` stream (line 352 `np.random.choice`), not from the
Explainer's seeded `self.random_state`; the global stream's position advances
across calls, so two runs of the filter on identical inputs — as made by an
Explainer constructed with a fixed seed — can return different elimination
sets.  Here the first run (stream positions 0-9) eliminates nothing while the
second (positions 10-19, where the stream yields opposite-sign resamples)
eliminates feature 0. -/
theorem C4_global_rng_breaks_reproducibility :
    (fit_ridge_on_k_neighbors oraclesC4 [[1], [2]] [1, 2] 0).1 = []
      ∧ (fit_ridge_on_k_neighbors oraclesC4 [[1], [2]] [1, 2] 0).2 = 10
      ∧ (fit_ridge_on_k_neighbors oraclesC4 [[1], [2]] [1, 2] 10).1 = [0]
      ∧ (fit_ridge_on_k_neighbors oraclesC4 [[1], [2]] [1, 2] 0).1
        ≠ (fit_ridge_on_k_neighbors oraclesC4 [[1], [2]] [1, 2]
            (fit_ridge_on_k_neighbors oraclesC4 [[1], [2]] [1, 2] 0).2).1 := by
  decide

/-- Filtering out the used features first does not change the inner scan. -/
theorem fsInnerScan_eq_NF (score : List Nat → Nat → ℚ) (used : List Nat) :
    ∀ (cs : List Nat) (bm : Nat × ℚ),
      fsInnerScan score used cs bm
        = fsScanNF (score used) (cs.filter (fun x => decide (x ∉ used))) bm := by
  intro cs
  induction cs with
  | nil => intro bm; rfl
  | cons f fs ih =>
    intro bm
    by_cases hf : f ∈ used
    · have hd : decide (f ∉ used) = false := by simp [hf]
      simp only [fsInnerScan, if_pos hf, List.filter_cons, hd]
      exact ih bm
    · have hd : decide (f ∉ used) = true := by simp [hf]
      simp only [fsInnerScan, if_neg hf, List.filter_cons, hd]
      by_cases h2 : bm.2 < score used f
      · simp only [fsScanNF, if_pos h2]
        exact ih _
      · simp only [fsScanNF, if_neg h2]
        exact ih bm

/-- A nonempty candidate list contains a first maximizer. -/
theorem find?_max_isSome (g : Nat → ℚ) (l : List Nat) (hne : l ≠ []) :
    (l.find? (fun c => decide (∀ c' ∈ l, g c' ≤ g c))).isSome := by
  obtain ⟨c₀, hmem⟩ := List.exists_mem_of_ne_nil l hne
  obtain ⟨cm, hcm⟩ := Option.ne_none_iff_exists'.mp
    (fun h => hne (List.argmax_eq_none.mp h) : l.argmax g ≠ none)
  refine List.find?_isSome.mpr ⟨cm, List.argmax_mem hcm, ?_⟩
  exact decide_eq_true (fun c' hc' => List.le_of_mem_argmax hc' hcm)

/-- The strict-improvement scan returns the first element that strictly
beats the initial bound and is maximal over the whole candidate list. -/
theorem fsScanNF_char (g : Nat → ℚ) :
    ∀ (cs : List Nat) (b : Nat) (m : ℚ),
      (fsScanNF g cs (b, m)).1
        = (cs.find? (fun c => decide (m < g c ∧ ∀ c' ∈ cs, g c' ≤ g c))).getD b := by
  intro cs
  induction cs with
  | nil => intro b m; rfl
  | cons f fs ih =>
    intro b m
    rw [List.find?_cons]
    by_cases hm : m < g f
    · simp only [fsScanNF, if_pos hm]
      by_cases hall : ∀ c' ∈ fs, g c' ≤ g f
      · have hPf : decide (m < g f ∧ ∀ c' ∈ f :: fs, g c' ≤ g f) = true := by
          refine decide_eq_true ⟨hm, ?_⟩
          intro c' hc'
          rcases List.mem_cons.mp hc' with h | h
          · rw [h]
          · exact hall c' h
        simp only [hPf]
        rw [ih f (g f)]
        have hnone : fs.find?
            (fun c => decide (g f < g c ∧ ∀ c' ∈ fs, g c' ≤ g c)) = none := by
          rw [List.find?_eq_none]
          intro c hc hdec
          exact absurd (of_decide_eq_true hdec).1 (not_lt.mpr (hall c hc))
        rw [hnone]
        rfl
      · push_neg at hall
        obtain ⟨c₀, hc₀mem, hc₀gt⟩ := hall
        have hPf : decide (m < g f ∧ ∀ c' ∈ f :: fs, g c' ≤ g f) = false := by
          refine decide_eq_false ?_
          rintro ⟨-, hforall⟩
          exact absurd (hforall c₀ (List.mem_cons_of_mem f hc₀mem)) (not_le.mpr hc₀gt)
        simp only [hPf]
        rw [ih f (g f)]
        have hcongr : fs.find? (fun c => decide (g f < g c ∧ ∀ c' ∈ fs, g c' ≤ g c))
            = fs.find? (fun c => decide (m < g c ∧ ∀ c' ∈ f :: fs, g c' ≤ g c)) := by
          apply find?_congruent
          intro x hx
          apply decide_eq_decide.mpr
          constructor
          · rintro ⟨h1, h2⟩
            refine ⟨lt_trans hm h1, ?_⟩
            intro c' hc'
            rcases List.mem_cons.mp hc' with h | h
            · rw [h]; exact le_of_lt h1
            · exact h2 c' h
          · rintro ⟨h1, h2⟩
            refine ⟨?_, fun c' hc' => h2 c' (List.mem_cons_of_mem f hc')⟩
            calc g f < g c₀ := hc₀gt
              _ ≤ g x := h2 c₀ (List.mem_cons_of_mem f hc₀mem)
        rw [hcongr]
        have hsome : (fs.find?
            (fun c => decide (m < g c ∧ ∀ c' ∈ f :: fs, g c' ≤ g c))).isSome := by
          have hfs : fs ≠ [] := List.ne_nil_of_mem hc₀mem
          obtain ⟨cm, hcm⟩ := Option.ne_none_iff_exists'.mp
            (fun h => hfs (List.argmax_eq_none.mp h) : fs.argmax g ≠ none)
          refine List.find?_isSome.mpr ⟨cm, List.argmax_mem hcm, decide_eq_true ?_⟩
          have hmax : ∀ c' ∈ fs, g c' ≤ g cm := fun c' hc' => List.le_of_mem_argmax hc' hcm
          refine ⟨lt_trans hm (lt_of_lt_of_le hc₀gt (hmax c₀ hc₀mem)), ?_⟩
          intro c' hc'
          rcases List.mem_cons.mp hc' with h | h
          · rw [h]
            exact le_of_lt (lt_of_lt_of_le hc₀gt (hmax c₀ hc₀mem))
          · exact hmax c' h
        obtain ⟨c', hc'⟩ := Option.isSome_iff_exists.mp hsome
        rw [hc']
        rfl
    · simp only [fsScanNF, if_neg hm]
      have hgf : g f ≤ m := le_of_not_lt hm
      have hPf : decide (m < g f ∧ ∀ c' ∈ f :: fs, g c' ≤ g f) = false := by
        refine decide_eq_false ?_
        rintro ⟨h1, -⟩
        exact absurd h1 hm
      simp only [hPf]
      rw [ih b m]
      congr 1
      apply find?_congruent
      intro x hx
      apply decide_eq_decide.mpr
      constructor
      · rintro ⟨h1, h2⟩
        refine ⟨h1, ?_⟩
        intro c' hc'
        rcases List.mem_cons.mp hc' with h | h
        · rw [h]; exact le_trans hgf (le_of_lt h1)
        · exact h2 c' h
      · rintro ⟨h1, h2⟩
        exact ⟨h1, fun c' hc' => h2 c' (List.mem_cons_of_mem f hc')⟩

/-- When every candidate score strictly beats the `-100000000` sentinel (true
of the weighted R² of a least-squares fit scored on its own training data),
the inner loop's winner is exactly the first maximizer among the not-yet-used
features. -/
theorem pickBest_eq_firstArgmax (score : List Nat → Nat → ℚ) (n : Nat)
    (used : List Nat) (hb : ∀ u f, -100000000 < score u f) :
    pickBest score n used
      = (firstArgmax (score used)
          ((List.range n).filter (fun x => decide (x ∉ used)))).getD 0 := by
  unfold pickBest firstArgmax
  rw [fsInnerScan_eq_NF, fsScanNF_char]
  congr 1
  apply find?_congruent
  intro x _
  apply decide_eq_decide.mpr
  exact ⟨fun h => h.2, fun h => ⟨hb used x, h⟩⟩

/-- A duplicate-free used list of fewer than `n` features below `n` leaves an
unused candidate. -/
theorem unused_nonempty (n : Nat) (used : List Nat) (hnd : used.Nodup)
    (hlt : ∀ x ∈ used, x < n) (hlen : used.length < n) :
    (List.range n).filter (fun x => decide (x ∉ used)) ≠ [] := by
  intro hemp
  have hsub : ∀ x, x < n → x ∈ used := by
    intro x hx
    by_contra hxn
    have hmem : x ∈ (List.range n).filter (fun x => decide (x ∉ used)) := by
      simp [List.mem_filter, List.mem_range, hx, hxn]
    rw [hemp] at hmem
    exact absurd hmem (List.not_mem_nil x)
  have hss : Finset.range n ⊆ used.toFinset := by
    intro x hx
    rw [List.mem_toFinset]
    exact hsub x (Finset.mem_range.mp hx)
  have h1 : n ≤ used.toFinset.card := by
    simpa using Finset.card_le_card hss
  have h2 : used.toFinset.card ≤ used.length := used.toFinset_card_le
  omega

/-- Round-by-round invariant of the greedy loop: the embedded loop agrees
with the spec-side greedy loop, appends one fresh in-range feature per round,
and keeps the used list duplicate-free. -/
theorem fsLoop_spec (score : List Nat → Nat → ℚ) (n : Nat)
    (hb : ∀ u f, -100000000 < score u f) :
    ∀ (r : Nat) (used : List Nat), used.Nodup → (∀ x ∈ used, x < n) →
      used.length + r ≤ n →
      fsLoop score n r used = greedyLoop score n r used
        ∧ (fsLoop score n r used).length = used.length + r
        ∧ (fsLoop score n r used).Nodup
        ∧ (∀ x ∈ fsLoop score n r used, x < n) := by
  intro r
  induction r with
  | zero =>
    intro used h1 h2 _
    exact ⟨rfl, by simp [fsLoop], h1, h2⟩
  | succ r ih =>
    intro used h1 h2 h3
    have hne : (List.range n).filter (fun x => decide (x ∉ used)) ≠ [] :=
      unused_nonempty n used h1 h2 (by omega)
    have hsome := find?_max_isSome (score used) _ hne
    obtain ⟨c', hc'⟩ := Option.isSome_iff_exists.mp hsome
    have hc'mem : c' ∈ (List.range n).filter (fun x => decide (x ∉ used)) :=
      List.mem_of_find?_eq_some hc'
    have hc'lt : c' < n := by
      have := List.of_mem_filter hc'mem
      have hr := List.mem_range.mp (List.mem_of_mem_filter hc'mem)
      exact hr
    have hc'notin : c' ∉ used := by
      have := List.of_mem_filter hc'mem
      exact of_decide_eq_true this
    have hcc : pickBest score n used = c' := by
      rw [pickBest_eq_firstArgmax score n used hb]
      unfold firstArgmax
      rw [hc']
      rfl
    have hgp : (firstArgmax (score used)
        ((List.range n).filter (fun x => decide (x ∉ used)))).getD 0 = c' := by
      unfold firstArgmax
      rw [hc']
      rfl
    have hnodup : (used ++ [c']).Nodup := by
      simp [List.nodup_append, h1, hc'notin]
    have hbound : ∀ x ∈ used ++ [c'], x < n := by
      intro x hx
      rcases List.mem_append.mp hx with h | h
      · exact h2 x h
      · rw [List.mem_singleton.mp h]; exact hc'lt
    have hlen : (used ++ [c']).length + r ≤ n := by
      simp only [List.length_append, List.length_singleton]
      omega
    have hstep := ih (used ++ [c']) hnodup hbound hlen
    have hfs : fsLoop score n (r + 1) used = fsLoop score n r (used ++ [c']) := by
      show fsLoop score n r (used ++ [pickBest score n used]) = _
      rw [hcc]
    have hgs : greedyLoop score n (r + 1) used = greedyLoop score n r (used ++ [c']) := by
      show greedyLoop score n r (used ++ [_]) = _
      rw [hgp]
    refine ⟨?_, ?_, ?_, ?_⟩
    · rw [hfs, hgs]; exact hstep.1
    · rw [hfs, hstep.2.1]; simp only [List.length_append, List.length_singleton]; omega
    · rw [hfs]; exact hstep.2.2.1
    · rw [hfs]; exact hstep.2.2.2

/-- C9: for every score capability bounded below by the `-100000000`
sentinel (the weighted R² of a zero-regularization ridge fit scored on its
own training data always is) and `num_features ≥ 1`, `forward_selection`
returns exactly `min(num_features, n_features)` pairwise-distinct feature
indices, and is the greedy procedure of the spec: each round appends, among
the not-yet-used features, the first one encountered attaining the maximum
score. -/
theorem C9_forward_selection_greedy (score : List Nat → Nat → ℚ) (n k : Nat)
    (hb : ∀ u f, -100000000 < score u f) (hk : 1 ≤ k) :
    (forward_selection score n k).length = min k n
      ∧ (forward_selection score n k).Nodup
      ∧ forward_selection score n k = greedySpecFS score n k := by
  have h := fsLoop_spec score n hb (min k n) [] (by simp) (by simp)
    (by simpa using Nat.min_le_right k n)
  exact ⟨by simpa using h.2.1, h.2.2.1, h.1⟩

/-- C9 (witness): the statement at the concrete score `score used f = f`
with 3 features and `num_features = 2` (the greedy result is `[2, 1]`). -/
theorem C9_witness :
    (∀ u f, (-100000000 : ℚ) < (fun (_ : List Nat) (f : Nat) => (f : ℚ)) u f)
      ∧ 1 ≤ 2
      ∧ ((forward_selection (fun _ f => (f : ℚ)) 3 2).length = min 2 3
        ∧ (forward_selection (fun _ f => (f : ℚ)) 3 2).Nodup
        ∧ forward_selection (fun _ f => (f : ℚ)) 3 2
          = greedySpecFS (fun _ f => (f : ℚ)) 3 2) := by
  have hb : ∀ u f, (-100000000 : ℚ) < (fun (_ : List Nat) (f : Nat) => (f : ℚ)) u f := by
    intro u f
    have h0 : (0 : ℚ) ≤ (f : ℚ) := Nat.cast_nonneg f
    have : (-100000000 : ℚ) < 0 := by norm_num
    linarith
  exact ⟨hb, by norm_num,
    C9_forward_selection_greedy (fun _ f => (f : ℚ)) 3 2 hb (by norm_num)⟩

/-- The per-feature scan of a filter round appends exactly the features whose
sign column fails the stability test, and clears exactly their flags. -/
theorem roundScanAux_char (coefs : List (List ℚ)) :
    ∀ (feats : List Nat) (idx : Nat) (flags : Nat → Bool) (elim : List Nat),
      (roundScanAux coefs feats idx flags elim).2
          = elim ++ roundScanElims coefs feats idx
        ∧ ∀ x, (roundScanAux coefs feats idx flags elim).1 x
          = (flags x && !(decide (x ∈ roundScanElims coefs feats idx))) := by
  intro feats
  induction feats with
  | nil =>
    intro idx flags elim
    exact ⟨by simp [roundScanAux, roundScanElims], by simp [roundScanAux, roundScanElims]⟩
  | cons f rest ih =>
    intro idx flags elim
    by_cases h : entropyExceeds (signColumn coefs idx)
    · have h1 := ih (idx + 1) (fun x => if x = f then false else flags x) (elim ++ [f])
      constructor
      · simp only [roundScanAux, if_pos h, roundScanElims]
        rw [h1.1]
        simp
      · intro x
        simp only [roundScanAux, if_pos h, roundScanElims]
        rw [h1.2 x]
        by_cases hx : x = f
        · subst hx
          simp
        · simp [hx]
    · have h1 := ih (idx + 1) flags elim
      constructor
      · simp only [roundScanAux, if_neg h, roundScanElims]
        exact h1.1
      · intro x
        simp only [roundScanAux, if_neg h, roundScanElims]
        exact h1.2 x

/-- Everything a round eliminates was among that round's active features. -/
theorem roundScanElims_subset (coefs : List (List ℚ)) :
    ∀ (feats : List Nat) (idx : Nat), roundScanElims coefs feats idx ⊆ feats := by
  intro feats
  induction feats with
  | nil => intro idx; simp [roundScanElims]
  | cons f rest ih =>
    intro idx x hx
    by_cases h : entropyExceeds (signColumn coefs idx)
    · simp only [roundScanElims, if_pos h] at hx
      rcases List.mem_cons.mp hx with h' | h'
      · exact h' ▸ List.mem_cons_self f rest
      · exact List.mem_cons_of_mem f (ih (idx + 1) h')
    · simp only [roundScanElims, if_neg h] at hx
      exact List.mem_cons_of_mem f (ih (idx + 1) hx)

/-- A round's eliminations are duplicate-free when its feature list is. -/
theorem roundScanElims_nodup (coefs : List (List ℚ)) :
    ∀ (feats : List Nat), feats.Nodup →
      ∀ idx, (roundScanElims coefs feats idx).Nodup := by
  intro feats
  induction feats with
  | nil => intro _ idx; simp [roundScanElims]
  | cons f rest ih =>
    intro hnd idx
    have hf : f ∉ rest := (List.nodup_cons.mp hnd).1
    have hrest : rest.Nodup := (List.nodup_cons.mp hnd).2
    by_cases h : entropyExceeds (signColumn coefs idx)
    · simp only [roundScanElims, if_pos h]
      rw [List.nodup_cons]
      exact ⟨fun hmem => hf (roundScanElims_subset coefs rest (idx + 1) hmem),
        ih hrest (idx + 1)⟩
    · simp only [roundScanElims, if_neg h]
      exact ih hrest (idx + 1)

/-- Position-wise description of a round's eliminations: the `j`-th active
feature is eliminated iff the sign entropy of column `j` of the round's
bootstrap coefficient matrix exceeds the threshold. -/
theorem roundScanElims_mem_iff (coefs : List (List ℚ)) :
    ∀ (feats : List Nat), feats.Nodup →
      ∀ (idx j : Nat), j < feats.length →
        (feats.getD j 0 ∈ roundScanElims coefs feats idx
          ↔ entropyExceeds (signColumn coefs (idx + j)) = true) := by
  intro feats
  induction feats with
  | nil => intro _ idx j hj; simp at hj
  | cons f rest ih =>
    intro hnd idx j hj
    have hf : f ∉ rest := (List.nodup_cons.mp hnd).1
    have hrest : rest.Nodup := (List.nodup_cons.mp hnd).2
    cases j with
    | zero =>
      simp only [List.getD_cons_zero, Nat.add_zero]
      by_cases h : entropyExceeds (signColumn coefs idx)
      · simp only [roundScanElims, if_pos h]
        simp [h]
      · simp only [roundScanElims, if_neg h]
        constructor
        · intro hmem
          exact absurd (roundScanElims_subset coefs rest (idx + 1) hmem) hf
        · intro hh
          exact absurd hh (by simpa using h)
    | succ j =>
      have hj' : j < rest.length := by simpa using hj
      have hget : (f :: rest).getD (j + 1) 0 = rest.getD j 0 := by
        simp [List.getD_cons_succ]
      rw [hget]
      have hmemrest : rest.getD j 0 ∈ rest := by
        have h1 : rest.getD j 0 = rest[j] := List.getD_eq_getElem rest 0 hj'
        rw [h1]
        exact List.getElem_mem hj'
      have harith : idx + (j + 1) = (idx + 1) + j := by omega
      rw [harith]
      by_cases h : entropyExceeds (signColumn coefs idx)
      · simp only [roundScanElims, if_pos h, List.mem_cons]
        rw [← ih hrest (idx + 1) j hj']
        constructor
        · rintro (h' | h')
          · exact absurd (h' ▸ hmemrest) hf
          · exact h'
        · intro h'
          exact Or.inr h'
      · simp only [roundScanElims, if_neg h]
        exact ih hrest (idx + 1) j hj'

/-- The active feature list of any flag assignment is duplicate-free. -/
theorem activeFeats_nodup (nf : Nat) (flags : Nat → Bool) :
    (activeFeats nf flags).Nodup :=
  (List.nodup_range nf).filter flags

/-- Membership in the active feature list. -/
theorem mem_activeFeats (nf : Nat) (flags : Nat → Bool) (x : Nat) :
    x ∈ activeFeats nf flags ↔ x < nf ∧ flags x = true := by
  simp [activeFeats, List.mem_filter, List.mem_range]

/-- One filter round preserves the elimination-list invariant: the list stays
duplicate-free and everything on it has its flag cleared. -/
theorem roundStep_inv (or : Oracles) (data : List (List ℚ)) (labels : List ℚ)
    (nf nsamp : Nat) (s : FilterState) (h1 : s.elim.Nodup)
    (h2 : ∀ x ∈ s.elim, s.flags x = false) :
    (roundStep or data labels nf nsamp s).elim.Nodup
      ∧ ∀ x ∈ (roundStep or data labels nf nsamp s).elim,
        (roundStep or data labels nf nsamp s).flags x = false := by
  have hchar := roundScanAux_char
    (bootCoefs or data labels (activeFeats nf s.flags) s.tick nsamp)
    (activeFeats nf s.flags) 0 s.flags s.elim
  have helim : (roundStep or data labels nf nsamp s).elim
      = s.elim ++ roundScanElims
          (bootCoefs or data labels (activeFeats nf s.flags) s.tick nsamp)
          (activeFeats nf s.flags) 0 := hchar.1
  have hflags : ∀ x, (roundStep or data labels nf nsamp s).flags x
      = (s.flags x && !(decide (x ∈ roundScanElims
          (bootCoefs or data labels (activeFeats nf s.flags) s.tick nsamp)
          (activeFeats nf s.flags) 0))) := hchar.2
  have hsub := roundScanElims_subset
    (bootCoefs or data labels (activeFeats nf s.flags) s.tick nsamp)
    (activeFeats nf s.flags) 0
  constructor
  · rw [helim, List.nodup_append]
    refine ⟨h1, roundScanElims_nodup _ _ (activeFeats_nodup nf s.flags) 0, ?_⟩
    intro x hx hx'
    have hact := hsub hx'
    have := (mem_activeFeats nf s.flags x).mp hact
    rw [h2 x hx] at this
    exact Bool.false_ne_true this.2
  · intro x hx
    rw [helim] at hx
    rw [hflags x]
    rcases List.mem_append.mp hx with h | h
    · rw [h2 x h]
      rfl
    · simp [h]

/-- The `while iter < 5` loop is the 5-fold iterate of the round step. -/
theorem filterLoop_eq_iterate (or : Oracles) (data : List (List ℚ))
    (labels : List ℚ) (nf nsamp : Nat) :
    ∀ (r : Nat) (s : FilterState),
      filterLoop or data labels nf nsamp r s
        = (roundStep or data labels nf nsamp)^[r] s := by
  intro r
  induction r with
  | zero => intro s; rfl
  | succ r ih =>
    intro s
    rw [Function.iterate_succ_apply]
    exact ih (roundStep or data labels nf nsamp s)

/-- The loop preserves the elimination-list invariant. -/
theorem filterLoop_inv (or : Oracles) (data : List (List ℚ)) (labels : List ℚ)
    (nf nsamp : Nat) :
    ∀ (r : Nat) (s : FilterState), s.elim.Nodup →
      (∀ x ∈ s.elim, s.flags x = false) →
      (filterLoop or data labels nf nsamp r s).elim.Nodup
        ∧ ∀ x ∈ (filterLoop or data labels nf nsamp r s).elim,
          (filterLoop or data labels nf nsamp r s).flags x = false := by
  intro r
  induction r with
  | zero => intro s h1 h2; exact ⟨h1, h2⟩
  | succ r ih =>
    intro s h1 h2
    have hstep := roundStep_inv or data labels nf nsamp s h1 h2
    exact ih (roundStep or data labels nf nsamp s) hstep.1 hstep.2

/-- C3: the stability filter runs exactly 5 rounds (its result is the
5-fold iterate of the round step on the all-active initial state); within a
round, the `j`-th active feature is appended to the elimination set iff the
base-2 sign-entropy test on column `j` of that round's bootstrap coefficients
fires (conjuncts 2 and 4), and the new flag assignment clears exactly the
eliminated features (conjunct 3) — so elimination is monotonic: a feature
marked inactive is absent from every later round's active list, the active
set never grows (conjunct 5), and the returned elimination list is
duplicate-free (conjunct 6). -/
theorem C3_stability_filter (or : Oracles) (data : List (List ℚ))
    (labels : List ℚ) :
    (∀ t0 : Nat, fit_ridge_on_k_neighbors or data labels t0
        = ((((roundStep or data labels (data.getD 0 []).length data.length)^[5])
              { flags := fun _ => true, elim := [], tick := t0 }).elim,
            (((roundStep or data labels (data.getD 0 []).length data.length)^[5])
              { flags := fun _ => true, elim := [], tick := t0 }).tick))
      ∧ (∀ s : FilterState,
          (roundStep or data labels (data.getD 0 []).length data.length s).elim
            = s.elim ++ roundScanElims
                (bootCoefs or data labels
                  (activeFeats (data.getD 0 []).length s.flags) s.tick data.length)
                (activeFeats (data.getD 0 []).length s.flags) 0)
      ∧ (∀ (s : FilterState) (x : Nat),
          (roundStep or data labels (data.getD 0 []).length data.length s).flags x
            = (s.flags x && !(decide (x ∈ roundScanElims
                (bootCoefs or data labels
                  (activeFeats (data.getD 0 []).length s.flags) s.tick data.length)
                (activeFeats (data.getD 0 []).length s.flags) 0))))
      ∧ (∀ (s : FilterState) (j : Nat),
          j < (activeFeats (data.getD 0 []).length s.flags).length →
          ((activeFeats (data.getD 0 []).length s.flags).getD j 0
              ∈ roundScanElims
                (bootCoefs or data labels
                  (activeFeats (data.getD 0 []).length s.flags) s.tick data.length)
                (activeFeats (data.getD 0 []).length s.flags) 0
            ↔ entropyExceeds (signColumn
                (bootCoefs or data labels
                  (activeFeats (data.getD 0 []).length s.flags) s.tick data.length)
                j) = true))
      ∧ (∀ s : FilterState,
          activeFeats (data.getD 0 []).length
              (roundStep or data labels (data.getD 0 []).length data.length s).flags
            ⊆ activeFeats (data.getD 0 []).length s.flags)
      ∧ (∀ t0 : Nat, (fit_ridge_on_k_neighbors or data labels t0).1.Nodup) := by
  refine ⟨?_, ?_, ?_, ?_, ?_, ?_⟩
  · intro t0
    show ((filterLoop or data labels (data.getD 0 []).length data.length 5
        { flags := fun _ => true, elim := [], tick := t0 }).elim, _) = _
    rw [filterLoop_eq_iterate]
  · intro s
    exact (roundScanAux_char _ _ 0 s.flags s.elim).1
  · intro s x
    exact (roundScanAux_char _ _ 0 s.flags s.elim).2 x
  · intro s j hj
    have h := roundScanElims_mem_iff
      (bootCoefs or data labels (activeFeats (data.getD 0 []).length s.flags)
        s.tick data.length)
      (activeFeats (data.getD 0 []).length s.flags)
      (activeFeats_nodup _ s.flags) 0 j hj
    simpa using h
  · intro s x hx
    have hmem := (mem_activeFeats _ _ x).mp hx
    have hflag : (roundStep or data labels (data.getD 0 []).length data.length s).flags x
        = (s.flags x && !(decide (x ∈ roundScanElims
            (bootCoefs or data labels (activeFeats (data.getD 0 []).length s.flags)
              s.tick data.length)
            (activeFeats (data.getD 0 []).length s.flags) 0))) :=
      (roundScanAux_char
        (bootCoefs or data labels (activeFeats (data.getD 0 []).length s.flags)
          s.tick data.length)
        (activeFeats (data.getD 0 []).length s.flags) 0 s.flags s.elim).2 x
    rw [mem_activeFeats]
    refine ⟨hmem.1, ?_⟩
    have h2 := hmem.2
    rw [hflag] at h2
    exact ((Bool.and_eq_true _ _).mp h2).1
  · intro t0
    have h := filterLoop_inv or data labels (data.getD 0 []).length data.length 5
      { flags := fun _ => true, elim := [], tick := t0 } (by simp) (by simp)
    exact h.1

/-- C3 (witness): the position-wise elimination test of the claim theorem,
instantiated on the concrete one-feature state at stream position 10 of
`oraclesC4`, where the test fires. -/
theorem C3_witness :
    0 < (activeFeats 1 (fun _ => true)).length
      ∧ (((activeFeats 1 (fun _ => true)).getD 0 0
          ∈ roundScanElims
              (bootCoefs oraclesC4 [[1], [2]] [1, 2] (activeFeats 1 (fun _ => true)) 10 2)
              (activeFeats 1 (fun _ => true)) 0)
        ↔ entropyExceeds (signColumn
            (bootCoefs oraclesC4 [[1], [2]] [1, 2] (activeFeats 1 (fun _ => true)) 10 2)
            0) = true) :=
  ⟨by decide,
    (C3_stability_filter oraclesC4 [[1], [2]] [1, 2]).2.2.2.1
      ⟨fun _ => true, [], 10⟩ 0 (by decide)⟩

/-- The padding loop collects the first `need` columns outside `seen`, in
scan order. -/
theorem collectPads_eq_take (seen : List Nat) :
    ∀ (l : List Nat) (need : Nat),
      collectPads seen need l
        = ((l.filter (fun i => !(decide (i ∈ seen)))).take need) := by
  intro l
  induction l with
  | nil => intro need; simp [collectPads]
  | cons i rest ih =>
    intro need
    by_cases h0 : need = 0
    · simp [collectPads, h0]
    · by_cases hmem : i ∈ seen
      · have hd : ¬((fun i => !(decide (i ∈ seen))) i = true) := by simp [hmem]
        rw [@List.filter_cons_of_neg _ (fun i => !(decide (i ∈ seen))) i rest hd]
        simp only [collectPads, if_neg h0, if_pos hmem]
        exact ih need
      · have hd : (fun i => !(decide (i ∈ seen))) i = true := by simp [hmem]
        obtain ⟨m, rfl⟩ : ∃ m, need = m + 1 := ⟨need - 1, by omega⟩
        rw [@List.filter_cons_of_pos _ (fun i => !(decide (i ∈ seen))) i rest hd, List.take_succ_cons]
        simp only [collectPads, if_neg h0, if_neg hmem, Nat.add_sub_cancel]
        rw [ih m]

/-- C2 (counterexample): `weighted_data` with the single explicit entry
`(index 5, value 2)`, `n_features = 10`, `num_features = 3`.  The code
returns `[5, 1, 2]`: because `indices_set` is built after the zero-padding,
column `0` is treated as already seen and is skipped by the padding scan, so
the result differs from the claimed `[5, 0, 1]` (non-zero indices followed by
the previously-unseen columns in ascending order) even as a set: the unseen
column `0` is not in the returned subset at all. -/
theorem C2_counterexample :
    highest_weights_sparse [(5, (2 : ℚ))] 10 3 = [5, 1, 2]
      ∧ highestWeightsSparseClaim [(5, (2 : ℚ))] 10 3 = [5, 0, 1]
      ∧ (0 : Nat) ∉ highest_weights_sparse [(5, (2 : ℚ))] 10 3 := by
  decide

/-- C2 (amended): in the sparse `highest_weights` branch with
`sdata < num_features`, the result is the non-zero indices sorted by
descending absolute contribution followed by padding columns taken in
ascending scan order from the columns that are neither non-zero indices nor
column `0` (the zero placeholders put `0` into `indices_set`, so column `0`
is never used as a pad), with any slots left after the scan exhausts all
columns keeping the placeholder value `0`; the result has exactly
`num_features` entries and contains every non-zero index. -/
theorem C2_sparse_padding (entries : List (Nat × ℚ)) (n k : Nat)
    (hsk : entries.length < k) :
    highest_weights_sparse entries n k = highestWeightsSparseAmended entries n k
      ∧ (highest_weights_sparse entries n k).length = k
      ∧ ∀ e ∈ entries, e.1 ∈ highest_weights_sparse entries n k := by
  have hpad : k - entries.length ≠ 0 := by omega
  have hfe : (List.range n).filter
        (fun i => !(decide (i ∈ nnzDescIdx entries ++ List.replicate (k - entries.length) 0)))
      = (List.range n).filter
        (fun i => decide (i ∉ nnzDescIdx entries) && decide (i ≠ 0)) := by
    apply List.filter_congr
    intro x _
    by_cases h1 : x ∈ nnzDescIdx entries
    · simp [List.mem_append, h1]
    · by_cases h2 : x = 0
      · simp [List.mem_append, List.mem_replicate, h1, h2, hpad]
      · simp [List.mem_append, List.mem_replicate, h1, h2]
  have heq : highest_weights_sparse entries n k = highestWeightsSparseAmended entries n k := by
    unfold highest_weights_sparse highestWeightsSparseAmended
    rw [if_pos hsk]
    dsimp only
    rw [collectPads_eq_take, hfe]
  refine ⟨heq, ?_, ?_⟩
  · have hlen : (((List.range n).filter
          (fun i => decide (i ∉ nnzDescIdx entries) && decide (i ≠ 0))).take
          (k - entries.length)).length ≤ k - entries.length := by
      simp [List.length_take]
    have hnnz : (nnzDescIdx entries).length = entries.length := by
      unfold nnzDescIdx
      simp [List.length_reverse, List.length_map, List.Perm.length_eq
        (List.perm_insertionSort _ entries)]
    rw [heq]
    unfold highestWeightsSparseAmended
    simp only [List.length_append, List.length_replicate]
    omega
  · intro e he
    rw [heq]
    unfold highestWeightsSparseAmended
    apply List.mem_append_left
    apply List.mem_append_left
    unfold nnzDescIdx
    apply List.mem_map_of_mem
    rw [List.mem_reverse]
    exact ((List.perm_insertionSort _ entries).mem_iff).mpr he

/-- C2 (witness): the amended statement at the single-entry instance. -/
theorem C2_witness :
    ([((5 : Nat), (2 : ℚ))].length < 3)
      ∧ (highest_weights_sparse [(5, (2 : ℚ))] 10 3
          = highestWeightsSparseAmended [(5, (2 : ℚ))] 10 3
        ∧ (highest_weights_sparse [(5, (2 : ℚ))] 10 3).length = 3
        ∧ ∀ e ∈ [((5 : Nat), (2 : ℚ))], e.1 ∈ highest_weights_sparse [(5, (2 : ℚ))] 10 3) :=
  ⟨by decide, C2_sparse_padding [(5, (2 : ℚ))] 10 3 (by decide)⟩
